import Mathlib

/-!
Verification of the sparse-buffer engine (`src/sparsebuffer.c`).

The C code keeps, per reader, a cursor `pos`, a logical `size`, and a
doubly-linked list of ranges sorted by start offset, each range owning a
byte payload.  We embed this shallowly: a `Range` is its start offset plus
its payload (the C `size` field always equals the number of payload bytes,
so the two are fused into `data.length`), the linked list becomes a
`List Range`, and each C function becomes a pure Lean function on an
explicit `SBReader` state.  Machine integers (`size_t`) are modelled as
`Nat`; the one place where wraparound is observable, the `SB_CUR` branch of
`sb_seek`, takes the sum modulo `2 ^ 64` explicitly.  Allocation is assumed
to succeed in this main model; a second model (`CRange`/`CSBReader` below)
makes every allocation call explicit through an oracle in order to study
the error codes of `sb_remove_range`/`sb_resize` under allocation failure.
The list-utility functions of the C file (`range_remove`,
`range_insert_before`, `range_insert_after`, `range_insert_end`) locate
their node by its `pos` key; for the duplicate-free lists maintained by the
engine this coincides with the structural insertion/removal used here.
-/

/-- A loaded range: start offset `pos` and owned payload `data`.
Mirrors `struct Range`; the C `size` field always equals the byte count of
`data`, so it is represented by `data.length`. -/
structure Range where
  pos : Nat
  data : List Nat
deriving DecidableEq, Repr

/-- The byte count of a range, the C `r->size`. -/
def Range.size (r : Range) : Nat := r.data.length

/-- Reader state: cursor `pos`, logical `size`, and the sorted range list.
Mirrors `struct SBReader` (the allocator triple is not part of the pure
state). -/
structure SBReader where
  pos : Nat
  size : Nat
  ranges : List Range
deriving DecidableEq, Repr

/-- `intersects` from sparsebuffer.c: two ranges intersect unless one ends
strictly before the other begins (touching counts as intersecting). -/
def intersects (a b : Range) : Bool :=
  !(a.pos + a.size < b.pos || b.pos + b.size < a.pos)

/-- `contains` from sparsebuffer.c: `a` contains `b`. -/
def contains (a b : Range) : Bool :=
  a.pos ≤ b.pos && a.pos + a.size ≥ b.pos + b.size

/-- `merge` from sparsebuffer.c.  `none` plays the role of `*merged = false`.
In the partial-overlap branch, `first` is the range with the lower start
(ties to `a`); when `first == a` the result is `a`'s bytes followed by the
tail of `b` past `a`'s end, otherwise `b`'s prefix below `a.pos` followed by
all of `a`'s bytes — the two `memcpy` pairs of lines 208-214. -/
def merge (a b : Range) : Option Range :=
  if ¬ intersects a b then none
  else if contains a b then some a
  else if contains b a then some b
  else if a.pos ≤ b.pos then
    some ⟨a.pos, a.data ++ b.data.drop (a.pos + a.size - b.pos)⟩
  else
    some ⟨b.pos, b.data.take (a.pos - b.pos) ++ a.data⟩

/-- The chain-merge loop of `sb_load_range` (lines 341-369): repeatedly try
to merge the accumulated range with its immediate successor, absorbing it on
success, until the first failure. -/
def chainMerge : Range → List Range → Range × List Range
  | m, [] => (m, [])
  | m, e :: rest =>
    match merge m e with
    | some m2 => chainMerge m2 rest
    | none => (m, e :: rest)

/-- The first merge scan of `sb_load_range` (lines 318-337) followed by the
chain merge: find the first existing range that merges with the new range
`r`, replace it in place with the merged result and absorb any further
mergeable successors.  `none` means no existing range intersects `r`. -/
def scanMergeAux (r : Range) : List Range → Option (List Range)
  | [] => none
  | e :: rest =>
    match merge r e with
    | some m => some ((chainMerge m rest).1 :: (chainMerge m rest).2)
    | none =>
      match scanMergeAux r rest with
      | some l2 => some (e :: l2)
      | none => none

/-- The sorted insertion of `sb_load_range` (lines 373-382): insert before
the first range with a strictly greater start, or at the end. -/
def insertSorted (r : Range) : List Range → List Range
  | [] => [r]
  | e :: rest => if r.pos < e.pos then r :: e :: rest else e :: insertSorted r rest

/-- `sb_load_range` from sparsebuffer.c, with allocation assumed to
succeed; `none` is the `-1` validation-error path. -/
def sb_load_range (reader : SBReader) (pos : Nat) (buf : List Nat) : Option SBReader :=
  if buf.length = 0 then none
  else if reader.pos + buf.length > reader.size then none
  else
    let r : Range := ⟨pos, buf⟩
    if reader.ranges.isEmpty then some { reader with ranges := [r] }
    else
      match scanMergeAux r reader.ranges with
      | some l2 => some { reader with ranges := l2 }
      | none => some { reader with ranges := insertSorted r reader.ranges }

/-- The range-walking loop of `sb_read` (lines 398-424).  Arguments are the
current absolute offset `off`, the remaining byte count `rem` and the ranges
not yet visited; the result is the bytes produced, the final offset and the
remaining count, mirroring the C variables `off`/`pos`/`rem`. -/
def readLoop : Nat → Nat → List Range → List Nat × Nat × Nat
  | off, rem, [] => ([], off, rem)
  | off, rem, e :: rest =>
    if e.pos + e.size < off then readLoop off rem rest
    else
      let zerosize := if e.pos > off then min (e.pos - off) rem else 0
      let off1 := off + zerosize
      let rem1 := rem - zerosize
      if rem1 = 0 then (List.replicate zerosize 0, off1, rem1)
      else
        let copysize := min (e.size - (off1 - e.pos)) rem1
        let chunk := (e.data.drop (off1 - e.pos)).take copysize
        let off2 := off1 + copysize
        let rem2 := rem1 - copysize
        if rem2 = 0 then (List.replicate zerosize 0 ++ chunk, off2, rem2)
        else
          let res := readLoop off2 rem2 rest
          (List.replicate zerosize 0 ++ chunk ++ res.1, res.2.1, res.2.2)

/-- `sb_read` from sparsebuffer.c.  The first component is the bytes read
(`none` for the `return 0` error paths), the second the reader state after
the call — the function body never assigns to reader fields, so every
branch returns `reader` itself. -/
def sb_read (reader : SBReader) (size : Nat) : Option (List Nat) × SBReader :=
  if size = 0 then (none, reader)
  else
    let res := readLoop reader.pos size reader.ranges
    let out := res.1
    let off := res.2.1
    let rem := res.2.2
    let tailzero :=
      if 0 < rem ∧ off < reader.size then min (reader.size - off) rem else 0
    let out2 := out ++ List.replicate tailzero 0
    let rem2 := rem - tailzero
    if rem2 ≠ 0 then (none, reader) else (some out2, reader)

/-- The modulus of `size_t` arithmetic (64-bit build). -/
def sizeTMod : Nat := 2 ^ 64

/-- `enum SBWhence`. -/
inductive SBWhence
  | SB_SET
  | SB_CUR
  | SB_END
deriving DecidableEq, Repr

/-- `sb_seek` from sparsebuffer.c.  The first component is the absolute
position written to `*pos` on success (`none` for the `-1` error paths),
the second the reader state after the call.  In the `SB_CUR` branch the C
expression `offset + reader->pos` is `size_t` addition, hence the explicit
modulus. -/
def sb_seek (reader : SBReader) (offset : Nat) (whence : SBWhence) :
    Option Nat × SBReader :=
  match whence with
  | .SB_SET =>
    let realoffset := offset
    if realoffset > reader.size then (none, reader)
    else (some realoffset, { reader with pos := realoffset })
  | .SB_CUR =>
    let realoffset := (offset + reader.pos) % sizeTMod
    if realoffset > reader.size then (none, reader)
    else (some realoffset, { reader with pos := realoffset })
  | .SB_END =>
    if offset > reader.size then (none, reader)
    else
      let realoffset := reader.size - offset
      if realoffset > reader.size then (none, reader)
      else (some realoffset, { reader with pos := realoffset })

/-- The range-walking loop of `sb_remove_range` (lines 486-571), with
allocation assumed to succeed.  The split branch shrinks `e` to the prefix
below `start` and inserts the `[end+1, rngend]` remainder right after it;
the two trailing `if`s are the one-sided truncations (at most one of them
fires, since the split branch covers the case where both would). -/
def removeLoop (start end_ : Nat) : List Range → List Range
  | [] => []
  | e :: rest =>
    let rngstart := e.pos
    let rngend := e.pos + e.size - 1
    if rngstart > end_ then e :: rest
    else if rngend < start then e :: removeLoop start end_ rest
    else if rngstart ≥ start ∧ rngend ≤ end_ then removeLoop start end_ rest
    else if rngend > end_ ∧ rngstart < start then
      ⟨e.pos, e.data.take (start - e.pos)⟩ ::
        ⟨end_ + 1, e.data.drop (end_ + 1 - e.pos)⟩ :: removeLoop start end_ rest
    else
      let e1 := if rngstart < start then (⟨e.pos, e.data.take (start - e.pos)⟩ : Range) else e
      let e2 := if rngend > end_ then (⟨end_ + 1, e1.data.drop (end_ + 1 - e1.pos)⟩ : Range) else e1
      e2 :: removeLoop start end_ rest

/-- `sb_remove_range` from sparsebuffer.c, with allocation assumed to
succeed; `none` is the `-1` validation-error path. -/
def sb_remove_range (reader : SBReader) (start end_ : Nat) : Option SBReader :=
  if end_ ≥ reader.size ∨ end_ < start then none
  else some { reader with ranges := removeLoop start end_ reader.ranges }

/-- `sb_resize` from sparsebuffer.c, with allocation assumed to succeed. -/
def sb_resize (reader : SBReader) (newsize : Nat) : Option SBReader :=
  if newsize = 0 then none
  else
    let step1 :=
      if newsize < reader.size then
        match sb_remove_range reader newsize (reader.size - 1) with
        | none => none
        | some r1 => some (if r1.pos > newsize then { r1 with pos := newsize } else r1)
      else some reader
    match step1 with
    | none => none
    | some r2 => some { r2 with size := newsize }

/-- Observation function used to state the claims: the logical byte at an
absolute offset, `some v` when the offset lies inside a loaded range with
payload byte `v` there, `none` when the offset is unloaded. -/
def loadedByteAt : List Range → Nat → Option Nat
  | [], _ => none
  | e :: rest, off =>
    if e.pos ≤ off ∧ off < e.pos + e.size then some (e.data.getD (off - e.pos) 0)
    else loadedByteAt rest off

/-- The separation invariant of the range list (§3 of the spec): consecutive
ranges are strictly ordered with a gap of at least one unloaded byte. -/
def gapRel (a b : Range) : Prop := a.pos + a.size < b.pos

instance : DecidableRel gapRel := fun a b => Nat.decLt _ _

/-- Range representation for the allocation-failure model: the C `size`
field kept separate from the payload, since a failed `realloc`/`malloc`
leaves `e->size` updated while `e->data` still holds the old bytes. -/
structure CRange where
  pos : Nat
  size : Nat
  data : List Nat
deriving DecidableEq, Repr

/-- Reader state for the allocation-failure model. -/
structure CSBReader where
  pos : Nat
  size : Nat
  ranges : List CRange
deriving DecidableEq, Repr

/-- The loop of `sb_remove_range` with every allocation call made explicit:
`ok n` tells whether the n-th allocation call (`malloc` or `realloc`,
counted from 0 within the operation) succeeds.  Results are the C return
code, the range list as left behind, and the next allocation index.  Note
the right-boundary truncation branch returns `1` on `malloc` failure
(line 561 of sparsebuffer.c), after `e->size` and `e->pos` were already
updated; every other allocation failure returns `-1`. -/
def removeLoopA (ok : Nat → Bool) (start end_ : Nat) : Nat → List CRange → Int × List CRange × Nat
  | cnt, [] => (0, [], cnt)
  | cnt, e :: rest =>
    let rngstart := e.pos
    let rngend := e.pos + e.size - 1
    if rngstart > end_ then (0, e :: rest, cnt)
    else if rngend < start then
      let res := removeLoopA ok start end_ cnt rest
      (res.1, e :: res.2.1, res.2.2)
    else if rngstart ≥ start ∧ rngend ≤ end_ then removeLoopA ok start end_ cnt rest
    else if rngend > end_ ∧ rngstart < start then
      -- split: malloc the Range node, malloc its data, then realloc e's data
      if ok cnt = false then (-1, e :: rest, cnt + 1)
      else if ok (cnt + 1) = false then (-1, e :: rest, cnt + 2)
      else
        let rng0 : CRange := ⟨end_ + 1, rngend + 1 - (end_ + 1), e.data.drop (end_ + 1 - rngstart)⟩
        if ok (cnt + 2) = false then
          (-1, ⟨e.pos, start - e.pos, e.data⟩ :: rng0 :: rest, cnt + 3)
        else
          let e1 : CRange := ⟨e.pos, start - e.pos, e.data.take (start - e.pos)⟩
          let res := removeLoopA ok start end_ (cnt + 3) rest
          (res.1, e1 :: rng0 :: res.2.1, res.2.2)
    else
      if rngstart < start then
        -- left-boundary truncation: e->size = start - e->pos, then realloc
        if ok cnt = false then (-1, ⟨e.pos, start - e.pos, e.data⟩ :: rest, cnt + 1)
        else
          let e1 : CRange := ⟨e.pos, start - e.pos, e.data.take (start - e.pos)⟩
          if rngend > end_ then
            let newsize := e1.size - (end_ + 1 - e1.pos)
            if ok (cnt + 1) = false then (1, ⟨end_ + 1, newsize, e1.data⟩ :: rest, cnt + 2)
            else
              let e2 : CRange := ⟨end_ + 1, newsize, (e1.data.drop (e1.size - newsize)).take newsize⟩
              let res := removeLoopA ok start end_ (cnt + 2) rest
              (res.1, e2 :: res.2.1, res.2.2)
          else
            let res := removeLoopA ok start end_ (cnt + 1) rest
            (res.1, e1 :: res.2.1, res.2.2)
      else
        if rngend > end_ then
          -- right-boundary truncation: e->size/e->pos updated, then malloc
          let newsize := e.size - (end_ + 1 - e.pos)
          if ok cnt = false then (1, ⟨end_ + 1, newsize, e.data⟩ :: rest, cnt + 1)
          else
            let e2 : CRange := ⟨end_ + 1, newsize, (e.data.drop (e.size - newsize)).take newsize⟩
            let res := removeLoopA ok start end_ (cnt + 1) rest
            (res.1, e2 :: res.2.1, res.2.2)
        else
          let res := removeLoopA ok start end_ cnt rest
          (res.1, e :: res.2.1, res.2.2)

/-- `sb_remove_range` in the allocation-failure model. -/
def sb_remove_rangeA (ok : Nat → Bool) (reader : CSBReader) (start end_ : Nat) :
    Int × CSBReader :=
  if end_ ≥ reader.size ∨ end_ < start then (-1, reader)
  else
    let res := removeLoopA ok start end_ 0 reader.ranges
    (res.1, { reader with ranges := res.2.1 })

/-- `sb_resize` in the allocation-failure model: only a negative return
from `sb_remove_range` aborts; any non-negative code falls through to the
cursor clamp and the size update. -/
def sb_resizeA (ok : Nat → Bool) (reader : CSBReader) (newsize : Nat) :
    Int × CSBReader :=
  if newsize = 0 then (-1, reader)
  else
    if newsize < reader.size then
      let res := sb_remove_rangeA ok reader newsize (reader.size - 1)
      if res.1 < 0 then (res.1, res.2)
      else
        let r1 := res.2
        let r2 := if r1.pos > newsize then { r1 with pos := newsize } else r1
        (0, { r2 with size := newsize })
    else (0, { reader with size := newsize })

/-! ### Basic facts about `intersects`, `contains` and `merge` -/

lemma Range.size_def (r : Range) : r.size = r.data.length := rfl

lemma gapRel_def {a b : Range} : gapRel a b ↔ a.pos + a.size < b.pos := Iff.rfl

lemma intersects_iff {a b : Range} :
    intersects a b = true ↔ b.pos ≤ a.pos + a.size ∧ a.pos ≤ b.pos + b.size := by
  simp [intersects, Nat.not_lt]

lemma contains_iff {a b : Range} :
    contains a b = true ↔ a.pos ≤ b.pos ∧ b.pos + b.size ≤ a.pos + a.size := by
  simp [contains]

lemma merge_eq_none_iff {a b : Range} :
    merge a b = none ↔ a.pos + a.size < b.pos ∨ b.pos + b.size < a.pos := by
  unfold merge
  split_ifs with h1 h2 h3 h4 <;>
    simp_all [intersects_iff, Nat.not_lt] <;> omega

/-- The extent of a merged range: it starts at the lower of the two starts
and ends at the higher of the two ends (stated through inequalities so that
`omega` can consume it). -/
lemma merge_extent {a b m : Range} (h : merge a b = some m) :
    m.pos ≤ a.pos ∧ m.pos ≤ b.pos ∧ (a.pos ≤ m.pos ∨ b.pos ≤ m.pos) ∧
    a.pos + a.size ≤ m.pos + m.size ∧ b.pos + b.size ≤ m.pos + m.size ∧
    (m.pos + m.size ≤ a.pos + a.size ∨ m.pos + m.size ≤ b.pos + b.size) := by
  unfold merge at h
  split_ifs at h with h1 h2 h3 h4
  · rw [intersects_iff] at h1
    rw [contains_iff] at h2
    obtain rfl := Option.some.inj h
    omega
  · rw [intersects_iff] at h1
    simp only [contains_iff] at h2 h3
    obtain rfl := Option.some.inj h
    omega
  · rw [intersects_iff] at h1
    simp only [contains_iff] at h2 h3
    obtain rfl := Option.some.inj h
    simp only [Range.size_def, List.length_append, List.length_drop] at *
    omega
  · rw [intersects_iff] at h1
    simp only [contains_iff] at h2 h3
    obtain rfl := Option.some.inj h
    simp only [Range.size_def, List.length_append, List.length_take] at *
    omega

/-! ### Preservation of the separation invariant by `sb_load_range` -/

lemma chainMerge_spec :
    ∀ (l : List Range) (m : Range),
      List.Pairwise gapRel l → (∀ e ∈ l, m.pos ≤ e.pos) →
      (chainMerge m l).1.pos = m.pos ∧
      m.size ≤ (chainMerge m l).1.size ∧
      List.Pairwise gapRel ((chainMerge m l).1 :: (chainMerge m l).2) ∧
      (∀ x ∈ (chainMerge m l).2, x ∈ l) := by
  intro l
  induction l with
  | nil =>
    intro m _ _
    simp [chainMerge]
  | cons e rest ih =>
    intro m hp hge
    rw [List.pairwise_cons] at hp
    obtain ⟨hpe, hprest⟩ := hp
    cases hm : merge m e with
    | some m2 =>
      have hext := merge_extent hm
      have hme : m.pos ≤ e.pos := hge e (List.mem_cons_self e rest)
      have hm2pos : m2.pos = m.pos := by omega
      have hrec := ih m2 hprest (by
        intro e' he'
        have := hpe e' he'
        rw [gapRel_def] at this
        omega)
      have hred : chainMerge m (e :: rest) = chainMerge m2 rest := by
        simp only [chainMerge, hm]
      rw [hred]
      refine ⟨by rw [hrec.1, hm2pos], by omega, hrec.2.2.1, ?_⟩
      intro x hx
      exact List.mem_cons_of_mem e (hrec.2.2.2 x hx)
    | none =>
      rw [merge_eq_none_iff] at hm
      have hme : m.pos ≤ e.pos := hge e (List.mem_cons_self e rest)
      have hgap : m.pos + m.size < e.pos := by omega
      have hred : chainMerge m (e :: rest) = (m, e :: rest) := by
        simp only [chainMerge, merge_eq_none_iff.mpr hm]
      rw [hred]
      refine ⟨rfl, le_refl _, ?_, fun x hx => hx⟩
      show List.Pairwise gapRel (m :: e :: rest)
      rw [List.pairwise_cons]
      refine ⟨?_, List.pairwise_cons.mpr ⟨hpe, hprest⟩⟩
      intro y hy
      rcases List.mem_cons.mp hy with rfl | hy'
      · exact hgap
      · have := hpe y hy'
        rw [gapRel_def] at this ⊢
        omega

lemma scanMergeAux_eq_none {r : Range} :
    ∀ {l : List Range}, (∀ e ∈ l, merge r e = none) → scanMergeAux r l = none := by
  intro l
  induction l with
  | nil => intro _; rfl
  | cons e rest ih =>
    intro h
    have he := h e (List.mem_cons_self e rest)
    simp only [scanMergeAux, he]
    rw [ih (fun x hx => h x (List.mem_cons_of_mem e hx))]

lemma scanMergeAux_none {r : Range} :
    ∀ {l : List Range}, scanMergeAux r l = none → ∀ e ∈ l, merge r e = none := by
  intro l
  induction l with
  | nil => intro _ e he; cases he
  | cons e rest ih =>
    intro h x hx
    unfold scanMergeAux at h
    cases hm : merge r e with
    | some m => rw [hm] at h; cases h
    | none =>
      rw [hm] at h
      rcases List.mem_cons.mp hx with rfl | hx'
      · exact hm
      · cases hrec : scanMergeAux r rest with
        | some l2 => rw [hrec] at h; cases h
        | none => exact ih hrec x hx'

lemma scanMergeAux_some :
    ∀ (l : List Range) (r : Range) (l2 : List Range),
      List.Pairwise gapRel l → scanMergeAux r l = some l2 →
      List.Pairwise gapRel l2 ∧
      (∀ c : Nat, c < r.pos → (∀ y ∈ l, c < y.pos) → ∀ x ∈ l2, c < x.pos) ∧
      ((∀ e ∈ l, 0 < e.size) → 0 < r.size → ∀ x ∈ l2, 0 < x.size) := by
  intro l
  induction l with
  | nil => intro r l2 _ h; cases h
  | cons e rest ih =>
    intro r l2 hp h
    rw [List.pairwise_cons] at hp
    obtain ⟨hpe, hprest⟩ := hp
    unfold scanMergeAux at h
    cases hm : merge r e with
    | some m =>
      rw [hm] at h
      obtain rfl := Option.some.inj h.symm
      have hext := merge_extent hm
      have hcm := chainMerge_spec rest m hprest (by
        intro e' he'
        have := hpe e' he'
        rw [gapRel_def] at this
        omega)
      refine ⟨hcm.2.2.1, ?_, ?_⟩
      · intro c hcr hcy x hx
        rcases List.mem_cons.mp hx with rfl | hx'
        · have hce : c < e.pos := hcy e (List.mem_cons_self e rest)
          omega
        · exact hcy _ (List.mem_cons_of_mem e (hcm.2.2.2 x hx'))
      · intro hpos hrpos x hx
        rcases List.mem_cons.mp hx with rfl | hx'
        · have : r.size ≤ m.size := by omega
          omega
        · exact hpos _ (List.mem_cons_of_mem e (hcm.2.2.2 x hx'))
    | none =>
      rw [hm] at h
      cases hrec : scanMergeAux r rest with
      | none => rw [hrec] at h; cases h
      | some l2' =>
        rw [hrec] at h
        obtain rfl := Option.some.inj h.symm
        have hrec' := ih r l2' hprest hrec
        rw [merge_eq_none_iff] at hm
        -- r cannot lie entirely before e, else nothing in rest would merge either
        have hre : e.pos + e.size < r.pos := by
          rcases hm with hm | hm
          · exfalso
            have : scanMergeAux r rest = none := scanMergeAux_eq_none (by
              intro y hy
              have := hpe y hy
              rw [gapRel_def] at this
              rw [merge_eq_none_iff]
              left
              omega)
            rw [this] at hrec
            cases hrec
          · exact hm
        refine ⟨?_, ?_, ?_⟩
        · rw [List.pairwise_cons]
          refine ⟨?_, hrec'.1⟩
          intro y hy
          rw [gapRel_def]
          exact hrec'.2.1 (e.pos + e.size) hre (by
            intro y' hy'
            have := hpe y' hy'
            rw [gapRel_def] at this
            omega) y hy
        · intro c hcr hcy x hx
          rcases List.mem_cons.mp hx with rfl | hx'
          · exact hcy x (List.mem_cons_self x rest)
          · exact hrec'.2.1 c hcr (fun y hy => hcy y (List.mem_cons_of_mem e hy)) x hx'
        · intro hpos hrpos x hx
          rcases List.mem_cons.mp hx with rfl | hx'
          · exact hpos x (List.mem_cons_self x rest)
          · exact hrec'.2.2 (fun y hy => hpos y (List.mem_cons_of_mem e hy)) hrpos x hx'

lemma mem_insertSorted {r x : Range} :
    ∀ {l : List Range}, x ∈ insertSorted r l ↔ x = r ∨ x ∈ l := by
  intro l
  induction l with
  | nil => simp [insertSorted]
  | cons e rest ih =>
    simp only [insertSorted]
    split_ifs with h
    · simp [List.mem_cons]
    · simp only [List.mem_cons, ih]
      tauto

lemma insertSorted_pairwise {r : Range} :
    ∀ {l : List Range},
      List.Pairwise gapRel l →
      (∀ e ∈ l, r.pos + r.size < e.pos ∨ e.pos + e.size < r.pos) →
      List.Pairwise gapRel (insertSorted r l) := by
  intro l
  induction l with
  | nil =>
    intro _ _
    simp [insertSorted]
  | cons e rest ih =>
    intro hp hsep
    rw [List.pairwise_cons] at hp
    obtain ⟨hpe, hprest⟩ := hp
    have hsepe := hsep e (List.mem_cons_self e rest)
    simp only [insertSorted]
    split_ifs with h
    · -- r inserted before e
      rw [List.pairwise_cons]
      refine ⟨?_, List.pairwise_cons.mpr ⟨hpe, hprest⟩⟩
      intro y hy
      have hre : r.pos + r.size < e.pos := by omega
      rcases List.mem_cons.mp hy with rfl | hy'
      · exact hre
      · have := hpe y hy'
        rw [gapRel_def] at this ⊢
        omega
    · -- e kept in front
      rw [List.pairwise_cons]
      refine ⟨?_, ih hprest (fun y hy => hsep y (List.mem_cons_of_mem e hy))⟩
      intro y hy
      rcases mem_insertSorted.mp hy with rfl | hy'
      · rw [gapRel_def]
        omega
      · exact hpe y hy'

/-! ### Case equations for the `sb_remove_range` loop -/

lemma size_mk_take (e : Range) (p n : Nat) :
    Range.size ⟨p, e.data.take n⟩ = min n e.size := by
  simp [Range.size_def]

lemma size_mk_drop (e : Range) (p n : Nat) :
    Range.size ⟨p, e.data.drop n⟩ = e.size - n := by
  simp [Range.size_def]

lemma removeLoop_nil {start end_ : Nat} : removeLoop start end_ [] = [] := rfl

lemma removeLoop_cons_break {start end_ : Nat} {e : Range} {rest : List Range}
    (h : e.pos > end_) :
    removeLoop start end_ (e :: rest) = e :: rest := by
  simp only [removeLoop]
  split_ifs <;> first | rfl | omega

lemma removeLoop_cons_skip {start end_ : Nat} {e : Range} {rest : List Range}
    (h1 : ¬ e.pos > end_) (h2 : e.pos + e.size - 1 < start) :
    removeLoop start end_ (e :: rest) = e :: removeLoop start end_ rest := by
  simp only [removeLoop]
  split_ifs <;> first | rfl | omega

lemma removeLoop_cons_inside {start end_ : Nat} {e : Range} {rest : List Range}
    (h1 : ¬ e.pos > end_) (h2 : ¬ e.pos + e.size - 1 < start)
    (h3 : e.pos ≥ start ∧ e.pos + e.size - 1 ≤ end_) :
    removeLoop start end_ (e :: rest) = removeLoop start end_ rest := by
  simp only [removeLoop]
  split_ifs <;> first | rfl | omega

lemma removeLoop_cons_split {start end_ : Nat} {e : Range} {rest : List Range}
    (h1 : ¬ e.pos > end_) (h2 : ¬ e.pos + e.size - 1 < start)
    (h3 : e.pos + e.size - 1 > end_ ∧ e.pos < start) :
    removeLoop start end_ (e :: rest) =
      ⟨e.pos, e.data.take (start - e.pos)⟩ ::
        ⟨end_ + 1, e.data.drop (end_ + 1 - e.pos)⟩ :: removeLoop start end_ rest := by
  simp only [removeLoop]
  split_ifs <;> first | rfl | omega

lemma removeLoop_cons_left {start end_ : Nat} {e : Range} {rest : List Range}
    (h1 : ¬ e.pos > end_) (h2 : ¬ e.pos + e.size - 1 < start)
    (h3 : e.pos < start) (h4 : ¬ e.pos + e.size - 1 > end_) :
    removeLoop start end_ (e :: rest) =
      ⟨e.pos, e.data.take (start - e.pos)⟩ :: removeLoop start end_ rest := by
  simp only [removeLoop]
  split_ifs <;> first | rfl | omega

lemma removeLoop_cons_right {start end_ : Nat} {e : Range} {rest : List Range}
    (h1 : ¬ e.pos > end_) (h2 : ¬ e.pos + e.size - 1 < start)
    (h3 : ¬ e.pos < start) (h4 : e.pos + e.size - 1 > end_) :
    removeLoop start end_ (e :: rest) =
      ⟨end_ + 1, e.data.drop (end_ + 1 - e.pos)⟩ :: removeLoop start end_ rest := by
  simp only [removeLoop]
  split_ifs <;> first | rfl | omega

/-- Exhaustive case split for one step of the removal loop, mirroring the
five branch outcomes of the C loop body. -/
lemma removeLoop_cases (start end_ : Nat) (e : Range) (rest : List Range) :
    (e.pos > end_ ∧ removeLoop start end_ (e :: rest) = e :: rest) ∨
    (¬ e.pos > end_ ∧ e.pos + e.size - 1 < start ∧
      removeLoop start end_ (e :: rest) = e :: removeLoop start end_ rest) ∨
    (¬ e.pos > end_ ∧ ¬ e.pos + e.size - 1 < start ∧ e.pos ≥ start ∧ e.pos + e.size - 1 ≤ end_ ∧
      removeLoop start end_ (e :: rest) = removeLoop start end_ rest) ∨
    (¬ e.pos > end_ ∧ ¬ e.pos + e.size - 1 < start ∧ e.pos + e.size - 1 > end_ ∧ e.pos < start ∧
      removeLoop start end_ (e :: rest) =
        ⟨e.pos, e.data.take (start - e.pos)⟩ ::
          ⟨end_ + 1, e.data.drop (end_ + 1 - e.pos)⟩ :: removeLoop start end_ rest) ∨
    (¬ e.pos > end_ ∧ ¬ e.pos + e.size - 1 < start ∧ e.pos < start ∧ ¬ e.pos + e.size - 1 > end_ ∧
      removeLoop start end_ (e :: rest) =
        ⟨e.pos, e.data.take (start - e.pos)⟩ :: removeLoop start end_ rest) ∨
    (¬ e.pos > end_ ∧ ¬ e.pos + e.size - 1 < start ∧ ¬ e.pos < start ∧ e.pos + e.size - 1 > end_ ∧
      removeLoop start end_ (e :: rest) =
        ⟨end_ + 1, e.data.drop (end_ + 1 - e.pos)⟩ :: removeLoop start end_ rest) := by
  by_cases h1 : e.pos > end_
  · exact Or.inl ⟨h1, removeLoop_cons_break h1⟩
  by_cases h2 : e.pos + e.size - 1 < start
  · exact Or.inr (Or.inl ⟨h1, h2, removeLoop_cons_skip h1 h2⟩)
  by_cases h3 : e.pos ≥ start ∧ e.pos + e.size - 1 ≤ end_
  · exact Or.inr (Or.inr (Or.inl ⟨h1, h2, h3.1, h3.2, removeLoop_cons_inside h1 h2 h3⟩))
  by_cases h4 : e.pos < start
  · by_cases h5 : e.pos + e.size - 1 > end_
    · exact Or.inr (Or.inr (Or.inr (Or.inl ⟨h1, h2, h5, h4, removeLoop_cons_split h1 h2 ⟨h5, h4⟩⟩)))
    · exact Or.inr (Or.inr (Or.inr (Or.inr (Or.inl ⟨h1, h2, h4, h5, removeLoop_cons_left h1 h2 h4 h5⟩))))
  · have h5 : e.pos + e.size - 1 > end_ := by omega
    exact Or.inr (Or.inr (Or.inr (Or.inr (Or.inr ⟨h1, h2, h4, h5, removeLoop_cons_right h1 h2 h4 h5⟩))))

/-- The loop of `sb_remove_range` preserves the separation invariant and
size positivity, and never moves a range's start below a strict lower bound
on the incoming starts. -/
lemma removeLoop_invariant {start end_ : Nat} (hse : start ≤ end_) :
    ∀ {l : List Range},
      List.Pairwise gapRel l → (∀ e ∈ l, 0 < e.size) →
      List.Pairwise gapRel (removeLoop start end_ l) ∧
      (∀ x ∈ removeLoop start end_ l, 0 < x.size) ∧
      (∀ c : Nat, (∀ e ∈ l, c < e.pos) → ∀ x ∈ removeLoop start end_ l, c < x.pos) := by
  intro l
  induction l with
  | nil =>
    intro _ _
    simp [removeLoop_nil]
  | cons e rest ih =>
    intro hp hpos
    rw [List.pairwise_cons] at hp
    obtain ⟨hpe, hprest⟩ := hp
    have hpose : 0 < e.size := hpos e (List.mem_cons_self e rest)
    have hrest := ih hprest (fun y hy => hpos y (List.mem_cons_of_mem e hy))
    have hbound : ∀ y ∈ rest, e.pos + e.size < y.pos := fun y hy => hpe y hy
    have hlow : ∀ x ∈ removeLoop start end_ rest, e.pos + e.size < x.pos :=
      hrest.2.2 (e.pos + e.size) hbound
    rcases removeLoop_cases start end_ e rest with
      ⟨hc, heq⟩ | ⟨h1, h2, heq⟩ | ⟨h1, h2, h3, h4, heq⟩ | ⟨h1, h2, h3, h4, heq⟩ |
      ⟨h1, h2, h3, h4, heq⟩ | ⟨h1, h2, h3, h4, heq⟩ <;> rw [heq]
    · -- break: list unchanged
      exact ⟨List.pairwise_cons.mpr ⟨hpe, hprest⟩, hpos, fun c hc' x hx => hc' x hx⟩
    · -- skip: e kept unchanged
      refine ⟨?_, ?_, ?_⟩
      · rw [List.pairwise_cons]
        exact ⟨fun y hy => hlow y hy, hrest.1⟩
      · intro x hx
        rcases List.mem_cons.mp hx with rfl | hx'
        · exact hpose
        · exact hrest.2.1 x hx'
      · intro c hc' x hx
        rcases List.mem_cons.mp hx with rfl | hx'
        · exact hc' x (List.mem_cons_self x rest)
        · exact hrest.2.2 c (fun y hy => hc' y (List.mem_cons_of_mem e hy)) x hx'
    · -- fully inside: e removed
      refine ⟨hrest.1, hrest.2.1, ?_⟩
      intro c hc' x hx
      exact hrest.2.2 c (fun y hy => hc' y (List.mem_cons_of_mem e hy)) x hx
    · -- split into left and right remainders
      refine ⟨?_, ?_, ?_⟩
      · rw [List.pairwise_cons]
        constructor
        · intro y hy
          rcases List.mem_cons.mp hy with rfl | hy'
          · simp only [gapRel_def, size_mk_take]
            omega
          · have := hlow y hy'
            simp only [gapRel_def, size_mk_take]
            omega
        · rw [List.pairwise_cons]
          refine ⟨?_, hrest.1⟩
          intro y hy
          have := hlow y hy
          simp only [gapRel_def, size_mk_drop]
          omega
      · intro x hx
        rcases List.mem_cons.mp hx with rfl | hx'
        · rw [size_mk_take]
          omega
        rcases List.mem_cons.mp hx' with rfl | hx''
        · rw [size_mk_drop]
          omega
        · exact hrest.2.1 x hx''
      · intro c hc' x hx
        have hce : c < e.pos := hc' e (List.mem_cons_self e rest)
        rcases List.mem_cons.mp hx with rfl | hx'
        · exact hce
        rcases List.mem_cons.mp hx' with rfl | hx''
        · show c < end_ + 1
          omega
        · exact hrest.2.2 c (fun y hy => hc' y (List.mem_cons_of_mem e hy)) x hx''
    · -- left-boundary truncation
      refine ⟨?_, ?_, ?_⟩
      · rw [List.pairwise_cons]
        refine ⟨?_, hrest.1⟩
        intro y hy
        have := hlow y hy
        simp only [gapRel_def, size_mk_take]
        omega
      · intro x hx
        rcases List.mem_cons.mp hx with rfl | hx'
        · rw [size_mk_take]
          omega
        · exact hrest.2.1 x hx'
      · intro c hc' x hx
        rcases List.mem_cons.mp hx with rfl | hx'
        · exact hc' e (List.mem_cons_self e rest)
        · exact hrest.2.2 c (fun y hy => hc' y (List.mem_cons_of_mem e hy)) x hx'
    · -- right-boundary truncation
      refine ⟨?_, ?_, ?_⟩
      · rw [List.pairwise_cons]
        refine ⟨?_, hrest.1⟩
        intro y hy
        have := hlow y hy
        simp only [gapRel_def, size_mk_drop]
        omega
      · intro x hx
        rcases List.mem_cons.mp hx with rfl | hx'
        · rw [size_mk_drop]
          omega
        · exact hrest.2.1 x hx'
      · intro c hc' x hx
        have hce : c < e.pos := hc' e (List.mem_cons_self e rest)
        rcases List.mem_cons.mp hx with rfl | hx'
        · show c < end_ + 1
          omega
        · exact hrest.2.2 c (fun y hy => hc' y (List.mem_cons_of_mem e hy)) x hx'

/-! ### Pointwise byte semantics of removal -/

lemma getD_take {l : List Nat} {n i : Nat} (h : i < n) :
    (l.take n).getD i 0 = l.getD i 0 := by
  simp [List.getD_eq_getElem?_getD, List.getElem?_take, h]

lemma getD_drop {l : List Nat} {n i : Nat} :
    (l.drop n).getD i 0 = l.getD (n + i) 0 := by
  simp [List.getD_eq_getElem?_getD, List.getElem?_drop]

lemma loadedByteAt_cons (e : Range) (rest : List Range) (off : Nat) :
    loadedByteAt (e :: rest) off =
      if e.pos ≤ off ∧ off < e.pos + e.size then some (e.data.getD (off - e.pos) 0)
      else loadedByteAt rest off := rfl

lemma loadedByteAt_eq_none_of_lt : ∀ {l : List Range} {off : Nat},
    (∀ e ∈ l, off < e.pos) → loadedByteAt l off = none := by
  intro l
  induction l with
  | nil => intro _ _; rfl
  | cons e rest ih =>
    intro off h
    rw [loadedByteAt_cons, if_neg]
    · exact ih fun y hy => h y (List.mem_cons_of_mem e hy)
    · have := h e (List.mem_cons_self e rest)
      omega

/-- Byte-level effect of the removal loop on a well-formed list: offsets in
the inclusive deletion interval become unloaded, all others are untouched. -/
lemma removeLoop_byte {start end_ : Nat} :
    ∀ {l : List Range}, List.Pairwise gapRel l → (∀ e ∈ l, 0 < e.size) →
      ∀ off, loadedByteAt (removeLoop start end_ l) off =
        if start ≤ off ∧ off ≤ end_ then none else loadedByteAt l off := by
  intro l
  induction l with
  | nil =>
    intro _ _ off
    rw [removeLoop_nil]
    split_ifs <;> rfl
  | cons e rest ih =>
    intro hp hpos off
    rw [List.pairwise_cons] at hp
    obtain ⟨hpe, hprest⟩ := hp
    have hpose : 0 < e.size := hpos e (List.mem_cons_self e rest)
    have hbound : ∀ y ∈ rest, e.pos + e.size < y.pos := fun y hy => hpe y hy
    have ihr := ih hprest (fun y hy => hpos y (List.mem_cons_of_mem e hy)) off
    rcases removeLoop_cases start end_ e rest with
      ⟨h1, heq⟩ | ⟨h1, h2, heq⟩ | ⟨h1, h2, h3, h4, heq⟩ | ⟨h1, h2, h3, h4, heq⟩ |
      ⟨h1, h2, h3, h4, heq⟩ | ⟨h1, h2, h3, h4, heq⟩ <;> rw [heq]
    · -- break: everything from here on starts after the interval
      rw [loadedByteAt_cons]
      split_ifs <;>
        first
        | rfl
        | omega
        | exact loadedByteAt_eq_none_of_lt fun y hy => by
            have := hbound y hy
            omega
    · -- skip
      rw [loadedByteAt_cons, loadedByteAt_cons, ihr]
      split_ifs <;> first | rfl | omega
    · -- fully inside
      rw [ihr, loadedByteAt_cons]
      split_ifs <;> first | rfl | omega
    · -- split
      rw [loadedByteAt_cons, loadedByteAt_cons, loadedByteAt_cons, ihr]
      simp only [size_mk_take, size_mk_drop]
      split_ifs <;>
        first
        | rfl
        | omega
        | rw [getD_take (by omega)]
        | (rw [getD_drop]
           have hidx : end_ + 1 - e.pos + (off - (end_ + 1)) = off - e.pos := by omega
           rw [hidx])
    · -- left-boundary truncation
      rw [loadedByteAt_cons, loadedByteAt_cons, ihr]
      simp only [size_mk_take]
      split_ifs <;>
        first
        | rfl
        | omega
        | rw [getD_take (by omega)]
    · -- right-boundary truncation
      rw [loadedByteAt_cons, loadedByteAt_cons, ihr]
      simp only [size_mk_drop]
      split_ifs <;>
        first
        | rfl
        | omega
        | (rw [getD_drop]
           have hidx : end_ + 1 - e.pos + (off - (end_ + 1)) = off - e.pos := by omega
           rw [hidx])

/-! ### Case equations and helpers for the `sb_read` loop -/

lemma getD_append_lt {xs ys : List Nat} {i : Nat} (h : i < xs.length) :
    (xs ++ ys).getD i 0 = xs.getD i 0 := by
  simp [List.getD_eq_getElem?_getD, List.getElem?_append, h]

lemma getD_append_ge {xs ys : List Nat} {i : Nat} (h : xs.length ≤ i) :
    (xs ++ ys).getD i 0 = ys.getD (i - xs.length) 0 := by
  simp [List.getD_eq_getElem?_getD, List.getElem?_append_right h]

lemma getD_replicate {n i : Nat} : (List.replicate n (0 : Nat)).getD i 0 = 0 := by
  simp only [List.getD_eq_getElem?_getD, List.getElem?_replicate]
  split_ifs <;> rfl

lemma readLoop_nil {off rem : Nat} : readLoop off rem [] = ([], off, rem) := rfl

lemma readLoop_cons_skip {off rem : Nat} {e : Range} {rest : List Range}
    (h : e.pos + e.size < off) :
    readLoop off rem (e :: rest) = readLoop off rem rest := by
  simp only [readLoop, if_pos h]

lemma readLoop_cons_zstop {off rem : Nat} {e : Range} {rest : List Range} {Z : Nat}
    (h : ¬ e.pos + e.size < off)
    (hZ : Z = if e.pos > off then min (e.pos - off) rem else 0)
    (hstop : rem - Z = 0) :
    readLoop off rem (e :: rest) = (List.replicate Z 0, off + Z, rem - Z) := by
  subst hZ
  simp only [readLoop, if_neg h]
  split_ifs at * <;> first | rfl | omega

lemma readLoop_cons_cstop {off rem : Nat} {e : Range} {rest : List Range} {Z C : Nat}
    (h : ¬ e.pos + e.size < off)
    (hZ : Z = if e.pos > off then min (e.pos - off) rem else 0)
    (hnz : ¬ rem - Z = 0)
    (hC : C = min (e.size - (off + Z - e.pos)) (rem - Z))
    (hcstop : rem - Z - C = 0) :
    readLoop off rem (e :: rest) =
      (List.replicate Z 0 ++ (e.data.drop (off + Z - e.pos)).take C, off + Z + C, rem - Z - C) := by
  subst hZ
  subst hC
  simp only [readLoop, if_neg h]
  split_ifs at * <;> first | rfl | omega

lemma readLoop_cons_rec {off rem : Nat} {e : Range} {rest : List Range} {Z C : Nat}
    (h : ¬ e.pos + e.size < off)
    (hZ : Z = if e.pos > off then min (e.pos - off) rem else 0)
    (hnz : ¬ rem - Z = 0)
    (hC : C = min (e.size - (off + Z - e.pos)) (rem - Z))
    (hnc : ¬ rem - Z - C = 0) :
    readLoop off rem (e :: rest) =
      (List.replicate Z 0 ++ (e.data.drop (off + Z - e.pos)).take C ++
        (readLoop (off + Z + C) (rem - Z - C) rest).1,
       (readLoop (off + Z + C) (rem - Z - C) rest).2.1,
       (readLoop (off + Z + C) (rem - Z - C) rest).2.2) := by
  subst hZ
  subst hC
  simp only [readLoop, if_neg h]
  split_ifs at * <;> first | rfl | omega

/-- Full specification of the `sb_read` walking loop over a well-formed
range list bounded by `B`: it produces `rem - rem'` bytes, one per offset
starting at `off`, each equal to the loaded byte there (zero when
unloaded); it never walks past `B`, and it leaves `rem' > 0` only after
consuming every range. -/
lemma readLoop_spec {B : Nat} :
    ∀ (l : List Range) (off rem : Nat) (out : List Nat) (off' rem' : Nat),
      List.Pairwise gapRel l →
      (∀ e ∈ l, e.pos + e.size ≤ B) →
      off ≤ B →
      readLoop off rem l = (out, off', rem') →
      rem' ≤ rem ∧ out.length = rem - rem' ∧ off' = off + (rem - rem') ∧ off' ≤ B ∧
      (0 < rem' → ∀ e ∈ l, e.pos + e.size ≤ off') ∧
      (∀ i, i < rem - rem' → out.getD i 0 = (loadedByteAt l (off + i)).getD 0) := by
  intro l
  induction l with
  | nil =>
    intro off rem out off' rem' _ _ hoff h
    rw [readLoop_nil] at h
    simp only [Prod.mk.injEq] at h
    obtain ⟨rfl, rfl, rfl⟩ := h
    refine ⟨le_refl _, by simp, by omega, hoff, by simp, by omega⟩
  | cons e rest ih =>
    intro off rem out off' rem' hp hB hoff h
    rw [List.pairwise_cons] at hp
    obtain ⟨hpe, hprest⟩ := hp
    have hBe : e.pos + e.size ≤ B := hB e (List.mem_cons_self e rest)
    have hBrest : ∀ y ∈ rest, y.pos + y.size ≤ B := fun y hy => hB y (List.mem_cons_of_mem e hy)
    have hbound : ∀ y ∈ rest, e.pos + e.size < y.pos := fun y hy => hpe y hy
    by_cases hskip : e.pos + e.size < off
    · rw [readLoop_cons_skip hskip] at h
      obtain ⟨c1, c2, c3, c4, c5, c6⟩ := ih off rem out off' rem' hprest hBrest hoff h
      refine ⟨c1, c2, c3, c4, ?_, ?_⟩
      · intro hr y hy
        rcases List.mem_cons.mp hy with rfl | hy'
        · omega
        · exact c5 hr y hy'
      · intro i hi
        rw [c6 i hi, loadedByteAt_cons, if_neg (by omega)]
    · obtain ⟨Z, hZdef⟩ : ∃ z, z = if e.pos > off then min (e.pos - off) rem else 0 := ⟨_, rfl⟩
      have hZle : Z ≤ rem ∧ (e.pos > off → Z ≤ e.pos - off) ∧ (¬ e.pos > off → Z = 0) := by
        rw [hZdef]
        split_ifs with hgt <;> refine ⟨by omega, by omega, by omega⟩
      by_cases hz0 : rem - Z = 0
      · rw [readLoop_cons_zstop hskip hZdef hz0] at h
        simp only [Prod.mk.injEq] at h
        obtain ⟨rfl, rfl, rfl⟩ := h
        have hoffZ : off + Z ≤ B := by
          rcases Nat.lt_or_ge off e.pos with hgt | hle
          · have := hZle.2.1 hgt
            omega
          · have := hZle.2.2 (by omega)
            omega
        refine ⟨by omega, by simp [List.length_replicate]; omega, by omega, hoffZ, ?_, ?_⟩
        · intro hr
          omega
        · intro i hi
          have hiZ : i < Z := by omega
          have hlt : off + i < e.pos := by
            rcases Nat.lt_or_ge off e.pos with hgt | hle
            · have := hZle.2.1 hgt
              omega
            · have := hZle.2.2 (by omega)
              omega
          rw [getD_replicate, loadedByteAt_cons, if_neg (by omega),
            loadedByteAt_eq_none_of_lt (fun y hy => by have := hbound y hy; omega)]
          rfl
      · -- the zero-fill did not exhaust the request: off + Z is inside e
        have hfacts : e.pos ≤ off + Z ∧ off + Z - e.pos ≤ e.size ∧ off + Z ≤ B := by
          rcases Nat.lt_or_ge off e.pos with hgt | hle
          · have h1 := hZle.2.1 hgt
            have h2 : Z = e.pos - off := by
              have hz0' := hz0
              rw [hZdef] at hz0'
              rw [if_pos hgt] at hz0'
              rw [hZdef, if_pos hgt]
              omega
            omega
          · have := hZle.2.2 (by omega)
            omega
        obtain ⟨C, hCdef⟩ : ∃ c, c = min (e.size - (off + Z - e.pos)) (rem - Z) := ⟨_, rfl⟩
        have hCle : C ≤ e.size - (off + Z - e.pos) ∧ C ≤ rem - Z := by
          rw [hCdef]
          omega
        have hchunklen : ((e.data.drop (off + Z - e.pos)).take C).length = C := by
          rw [List.length_take, List.length_drop]
          have : e.size = e.data.length := rfl
          omega
        have hchunkbyte : ∀ i, Z ≤ i → i < Z + C →
            ((e.data.drop (off + Z - e.pos)).take C).getD (i - Z) 0 =
              (loadedByteAt (e :: rest) (off + i)).getD 0 := by
          intro i hiZ hiC
          rw [getD_take (by omega), getD_drop, loadedByteAt_cons, if_pos (by constructor <;> omega)]
          have hidx : off + Z - e.pos + (i - Z) = off + i - e.pos := by omega
          rw [hidx]
          rfl
        have hzerobyte : ∀ i, i < Z →
            (0 : Nat) = (loadedByteAt (e :: rest) (off + i)).getD 0 := by
          intro i hiZ
          have hgt : e.pos > off := by
            by_contra hc
            have := hZle.2.2 hc
            omega
          have h1 := hZle.2.1 hgt
          rw [loadedByteAt_cons, if_neg (by omega),
            loadedByteAt_eq_none_of_lt (fun y hy => by have := hbound y hy; omega)]
          rfl
        by_cases hc0 : rem - Z - C = 0
        · rw [readLoop_cons_cstop hskip hZdef hz0 hCdef hc0] at h
          simp only [Prod.mk.injEq] at h
          obtain ⟨rfl, rfl, rfl⟩ := h
          refine ⟨by omega, ?_, by omega, by omega, ?_, ?_⟩
          · rw [List.length_append, List.length_replicate, hchunklen]
            omega
          · intro hr
            omega
          · intro i hi
            by_cases hiZ : i < Z
            · rw [getD_append_lt (by rw [List.length_replicate]; omega), getD_replicate]
              exact hzerobyte i hiZ
            · rw [getD_append_ge (by rw [List.length_replicate]; omega), List.length_replicate]
              exact hchunkbyte i (by omega) (by omega)
        · -- recurse into the remaining ranges
          have hCval : C = e.size - (off + Z - e.pos) := by
            rw [hCdef]
            omega
          have hoff2 : off + Z + C = e.pos + e.size := by omega
          rw [readLoop_cons_rec hskip hZdef hz0 hCdef hc0] at h
          rcases hrec : readLoop (off + Z + C) (rem - Z - C) rest with ⟨out2, off2', rem2'⟩
          rw [hrec] at h
          simp only [Prod.mk.injEq] at h
          obtain ⟨rfl, rfl, rfl⟩ := h
          obtain ⟨c1, c2, c3, c4, c5, c6⟩ :=
            ih (off + Z + C) (rem - Z - C) out2 off2' rem2' hprest hBrest (by omega) hrec
          refine ⟨by omega, ?_, by omega, c4, ?_, ?_⟩
          · rw [List.length_append, List.length_append, List.length_replicate, hchunklen]
            omega
          · intro hr y hy
            rcases List.mem_cons.mp hy with rfl | hy'
            · omega
            · exact c5 hr y hy'
          · intro i hi
            by_cases hiZ : i < Z
            · rw [List.append_assoc, getD_append_lt (by rw [List.length_replicate]; omega),
                getD_replicate]
              exact hzerobyte i hiZ
            by_cases hiC : i < Z + C
            · rw [List.append_assoc,
                getD_append_ge (by rw [List.length_replicate]; omega), List.length_replicate,
                getD_append_lt (by rw [hchunklen]; omega)]
              exact hchunkbyte i (by omega) hiC
            · rw [List.append_assoc,
                getD_append_ge (by rw [List.length_replicate]; omega), List.length_replicate,
                getD_append_ge (by rw [hchunklen]; omega), hchunklen]
              have hb := c6 (i - Z - C) (by omega)
              have hidx : off + Z + C + (i - Z - C) = off + i := by omega
              rw [hidx] at hb
              rw [hb, loadedByteAt_cons, if_neg (by omega)]

lemma loadedByteAt_eq_none_of_ge : ∀ {l : List Range} {off : Nat},
    (∀ e ∈ l, e.pos + e.size ≤ off) → loadedByteAt l off = none := by
  intro l
  induction l with
  | nil => intro _ _; rfl
  | cons e rest ih =>
    intro off h
    rw [loadedByteAt_cons, if_neg]
    · exact ih fun y hy => h y (List.mem_cons_of_mem e hy)
    · have := h e (List.mem_cons_self e rest)
      omega

/-- Characterization of `sb_read` on an invariant-satisfying reader: it
succeeds exactly when the request is non-empty and fits below the logical
size, and then returns one byte per offset, loaded bytes verbatim and zero
elsewhere. -/
lemma sb_read_spec {reader : SBReader}
    (hp : List.Pairwise gapRel reader.ranges)
    (hB : ∀ e ∈ reader.ranges, e.pos + e.size ≤ reader.size)
    (hcur : reader.pos ≤ reader.size) (n : Nat) :
    ((sb_read reader n).1.isSome ↔ 0 < n ∧ reader.pos + n ≤ reader.size) ∧
    (∀ out, (sb_read reader n).1 = some out →
      out.length = n ∧
      ∀ i, i < n → out.getD i 0 = (loadedByteAt reader.ranges (reader.pos + i)).getD 0) := by
  by_cases hn0 : n = 0
  · subst hn0
    constructor
    · simp [sb_read]
    · intro out hout
      simp [sb_read] at hout
  · rcases hres : readLoop reader.pos n reader.ranges with ⟨out0, off0, rem0⟩
    obtain ⟨c1, c2, c3, c4, c5, c6⟩ :=
      readLoop_spec reader.ranges reader.pos n out0 off0 rem0 hp hB hcur hres
    have hread : (sb_read reader n).1 =
        (if rem0 - (if 0 < rem0 ∧ off0 < reader.size then min (reader.size - off0) rem0 else 0) ≠ 0
          then none
          else some (out0 ++ List.replicate
            (if 0 < rem0 ∧ off0 < reader.size then min (reader.size - off0) rem0 else 0) 0)) := by
      simp only [sb_read, if_neg hn0, hres]
      split_ifs <;> rfl
    by_cases hok : 0 < rem0 ∧ off0 < reader.size
    · rw [if_pos hok] at hread
      by_cases hfit : reader.pos + n ≤ reader.size
      · have hz : rem0 - min (reader.size - off0) rem0 = 0 := by omega
        rw [if_neg (by omega)] at hread
        constructor
        · rw [hread]
          simp only [Option.isSome_some, true_iff]
          exact ⟨by omega, hfit⟩
        · intro out hout
          rw [hread] at hout
          obtain rfl := Option.some.inj hout
          have htz : min (reader.size - off0) rem0 = rem0 := by omega
          constructor
          · rw [List.length_append, List.length_replicate]
            omega
          · intro i hi
            by_cases hilt : i < out0.length
            · rw [getD_append_lt hilt]
              exact c6 i (by omega)
            · rw [getD_append_ge (by omega), getD_replicate,
                loadedByteAt_eq_none_of_ge (fun y hy => by
                  have := c5 (by omega) y hy
                  omega)]
              rfl
      · have hz : rem0 - min (reader.size - off0) rem0 ≠ 0 := by omega
        rw [if_pos hz] at hread
        rw [hread]
        constructor
        · simp only [Option.isSome_none, Bool.false_eq_true, false_iff]
          omega
        · intro out hout
          cases hout
    · rw [if_neg hok] at hread
      by_cases hr0 : rem0 = 0
      · rw [if_neg (by omega)] at hread
        have hfit : reader.pos + n ≤ reader.size := by omega
        constructor
        · rw [hread]
          simp only [Option.isSome_some, true_iff]
          exact ⟨by omega, hfit⟩
        · intro out hout
          rw [hread] at hout
          obtain rfl := Option.some.inj hout
          constructor
          · rw [List.length_append, List.length_replicate]
            omega
          · intro i hi
            rw [getD_append_lt (by omega)]
            exact c6 i (by omega)
      · rw [if_pos (by omega)] at hread
        rw [hread]
        have hoff0 : reader.size ≤ off0 := by omega
        constructor
        · simp only [Option.isSome_none, Bool.false_eq_true, false_iff]
          omega
        · intro out hout
          cases hout

/-- On a well-formed list, a range strictly containing the deletion interval
is replaced, in place, by its left remainder followed immediately by its
right remainder; everything else is untouched. -/
lemma removeLoop_split_structure {start end_ : Nat} (hse : start ≤ end_) :
    ∀ (l₁ : List Range) (e : Range) (l₂ : List Range),
      List.Pairwise gapRel (l₁ ++ e :: l₂) → (∀ x ∈ l₁ ++ e :: l₂, 0 < x.size) →
      e.pos < start → end_ < e.pos + e.size - 1 →
      removeLoop start end_ (l₁ ++ e :: l₂) =
        l₁ ++ ⟨e.pos, e.data.take (start - e.pos)⟩ ::
          ⟨end_ + 1, e.data.drop (end_ + 1 - e.pos)⟩ :: l₂ := by
  intro l₁
  induction l₁ with
  | nil =>
    intro e l₂ hp hpos hlt hgt
    simp only [List.nil_append] at *
    rw [List.pairwise_cons] at hp
    obtain ⟨hpe, hprest⟩ := hp
    have hpose : 0 < e.size := hpos e (List.mem_cons_self e l₂)
    rw [removeLoop_cons_split (by omega) (by omega) (by omega)]
    cases l₂ with
    | nil => rw [removeLoop_nil]
    | cons y l₂' =>
      have hy := hpe y (List.mem_cons_self y l₂')
      rw [gapRel_def] at hy
      rw [removeLoop_cons_break (by omega)]
  | cons x l₁' ih =>
    intro e l₂ hp hpos hlt hgt
    rw [List.cons_append] at hp ⊢
    rw [List.pairwise_cons] at hp
    obtain ⟨hpx, hprest⟩ := hp
    have hxe : gapRel x e := hpx e (by simp)
    rw [gapRel_def] at hxe
    have hxpos : 0 < x.size := hpos x (by simp)
    rw [removeLoop_cons_skip (by omega) (by omega)]
    rw [ih e l₂ hprest (fun z hz => hpos z (by simp [hz])) hlt hgt]
    rw [List.cons_append]

/-- Spec-side rendition of claim C1's merge rule for a partial overlap: the
byte below the higher start offset comes from the lower-start range, the
byte at or after the higher start offset from the higher-start range. -/
def mergeClaimByte (a b : Range) (off : Nat) : Nat :=
  if a.pos ≤ b.pos then
    if off < b.pos then a.data.getD (off - a.pos) 0 else b.data.getD (off - b.pos) 0
  else
    if off < a.pos then b.data.getD (off - b.pos) 0 else a.data.getD (off - a.pos) 0

/-- Claim C1 counterexample: loading `[2,2,2,2,2]` at offset 5 and then the
intersecting `[1,1,1,1,1,1,1,1]` at offset 0 (a partial overlap, neither
containing the other) produces the payload `[1,1,1,1,1,1,1,1,2,2]`: the
byte at absolute offset 5 is 1, taken from the *lower*-start (newly
inserted) range, whereas the claim's rule demands 2 from the higher-start
range. -/
theorem claim_C1_counterexample :
    intersects ⟨0, [1,1,1,1,1,1,1,1]⟩ ⟨5, [2,2,2,2,2]⟩ = true ∧
    contains ⟨0, [1,1,1,1,1,1,1,1]⟩ ⟨5, [2,2,2,2,2]⟩ = false ∧
    contains ⟨5, [2,2,2,2,2]⟩ ⟨0, [1,1,1,1,1,1,1,1]⟩ = false ∧
    sb_load_range ⟨0, 20, []⟩ 5 [2,2,2,2,2] = some ⟨0, 20, [⟨5, [2,2,2,2,2]⟩]⟩ ∧
    sb_load_range ⟨0, 20, [⟨5, [2,2,2,2,2]⟩]⟩ 0 [1,1,1,1,1,1,1,1] =
      some ⟨0, 20, [⟨0, [1,1,1,1,1,1,1,1,2,2]⟩]⟩ ∧
    loadedByteAt [⟨0, [1,1,1,1,1,1,1,1,2,2]⟩] 5 = some 1 ∧
    mergeClaimByte ⟨0, [1,1,1,1,1,1,1,1]⟩ ⟨5, [2,2,2,2,2]⟩ 5 = 2 := by
  decide

/-- Claim C1 as amended: when the newly inserted range `a` intersects the existing
range `b`, containment gives the containing range's bytes verbatim (ties to
`a`); in a partial overlap the merged range spans from the lower start to
the higher end, and the *newly inserted* range keeps its bytes over its
whole extent, the existing range contributing only the part outside it —
not "higher start offset wins". -/
theorem claim_C1 (a b : Range) (h : intersects a b = true) :
    (contains a b = true → merge a b = some a) ∧
    (contains a b = false → contains b a = true → merge a b = some b) ∧
    (contains a b = false → contains b a = false →
      ∃ m, merge a b = some m ∧
        m.pos = min a.pos b.pos ∧
        m.pos + m.size = max (a.pos + a.size) (b.pos + b.size) ∧
        ∀ off, m.pos ≤ off → off < m.pos + m.size →
          m.data.getD (off - m.pos) 0 =
            if a.pos ≤ off ∧ off < a.pos + a.size then a.data.getD (off - a.pos) 0
            else b.data.getD (off - b.pos) 0) := by
  have hint := intersects_iff.mp h
  have hsa : a.size = a.data.length := rfl
  have hsb : b.size = b.data.length := rfl
  refine ⟨?_, ?_, ?_⟩
  · intro hab
    unfold merge
    rw [if_neg (by simp [h]), if_pos hab]
  · intro hab hba
    unfold merge
    rw [if_neg (by simp [h]), if_neg (by simp [hab]), if_pos hba]
  · intro hab hba
    have hab' : ¬ (a.pos ≤ b.pos ∧ b.pos + b.size ≤ a.pos + a.size) := by
      rw [← contains_iff, hab]
      simp
    have hba' : ¬ (b.pos ≤ a.pos ∧ a.pos + a.size ≤ b.pos + b.size) := by
      rw [← contains_iff, hba]
      simp
    by_cases hle : a.pos ≤ b.pos
    · refine ⟨⟨a.pos, a.data ++ b.data.drop (a.pos + a.size - b.pos)⟩, ?_, ?_, ?_, ?_⟩
      · unfold merge
        rw [if_neg (by simp [h]), if_neg (by simp [hab]), if_neg (by simp [hba]), if_pos hle]
      · show a.pos = min a.pos b.pos
        omega
      · show a.pos + Range.size _ = max (a.pos + a.size) (b.pos + b.size)
        simp only [Range.size_def, List.length_append, List.length_drop]
        omega
      · intro off h1 h2
        simp only [Range.size_def, List.length_append, List.length_drop] at h2
        show (a.data ++ b.data.drop (a.pos + a.size - b.pos)).getD (off - a.pos) 0 = _
        by_cases hina : off < a.pos + a.size
        · rw [if_pos ⟨by exact_mod_cast le_trans (le_refl _) h1, hina⟩]
          exact getD_append_lt (by omega)
        · rw [if_neg (by omega)]
          rw [getD_append_ge (by omega)]
          rw [getD_drop]
          have hidx : a.pos + a.size - b.pos + (off - a.pos - a.data.length) = off - b.pos := by
            omega
          rw [hidx]
    · refine ⟨⟨b.pos, b.data.take (a.pos - b.pos) ++ a.data⟩, ?_, ?_, ?_, ?_⟩
      · unfold merge
        rw [if_neg (by simp [h]), if_neg (by simp [hab]), if_neg (by simp [hba]), if_neg hle]
      · show b.pos = min a.pos b.pos
        omega
      · show b.pos + Range.size _ = max (a.pos + a.size) (b.pos + b.size)
        simp only [Range.size_def, List.length_append, List.length_take]
        omega
      · intro off h1 h2
        simp only [Range.size_def, List.length_append, List.length_take] at h2
        show (b.data.take (a.pos - b.pos) ++ a.data).getD (off - b.pos) 0 = _
        by_cases hina : a.pos ≤ off
        · rw [if_pos ⟨hina, by omega⟩]
          rw [getD_append_ge (by rw [List.length_take]; omega)]
          rw [List.length_take]
          have hidx : off - b.pos - min (a.pos - b.pos) b.data.length = off - a.pos := by
            omega
          rw [hidx]
        · rw [if_neg (by omega)]
          rw [getD_append_lt (by rw [List.length_take]; omega)]
          exact getD_take (by omega)

/-- Claim C1 witness: the amended theorem applied to the counterexample's pair of
partially overlapping ranges. -/
theorem claim_C1_witness :
    intersects ⟨0, [1,1,1,1,1,1,1,1]⟩ ⟨5, [2,2,2,2,2]⟩ = true ∧
    ((contains ⟨0, [1,1,1,1,1,1,1,1]⟩ ⟨5, [2,2,2,2,2]⟩ = true →
        merge ⟨0, [1,1,1,1,1,1,1,1]⟩ ⟨5, [2,2,2,2,2]⟩ = some ⟨0, [1,1,1,1,1,1,1,1]⟩) ∧
      (contains ⟨0, [1,1,1,1,1,1,1,1]⟩ ⟨5, [2,2,2,2,2]⟩ = false →
        contains ⟨5, [2,2,2,2,2]⟩ ⟨0, [1,1,1,1,1,1,1,1]⟩ = true →
        merge ⟨0, [1,1,1,1,1,1,1,1]⟩ ⟨5, [2,2,2,2,2]⟩ = some ⟨5, [2,2,2,2,2]⟩) ∧
      (contains ⟨0, [1,1,1,1,1,1,1,1]⟩ ⟨5, [2,2,2,2,2]⟩ = false →
        contains ⟨5, [2,2,2,2,2]⟩ ⟨0, [1,1,1,1,1,1,1,1]⟩ = false →
        ∃ m, merge ⟨0, [1,1,1,1,1,1,1,1]⟩ ⟨5, [2,2,2,2,2]⟩ = some m ∧
          m.pos = min (Range.pos ⟨0, [1,1,1,1,1,1,1,1]⟩) (Range.pos ⟨5, [2,2,2,2,2]⟩) ∧
          m.pos + m.size = max (Range.pos ⟨0, [1,1,1,1,1,1,1,1]⟩ + Range.size ⟨0, [1,1,1,1,1,1,1,1]⟩)
            (Range.pos ⟨5, [2,2,2,2,2]⟩ + Range.size ⟨5, [2,2,2,2,2]⟩) ∧
          ∀ off, m.pos ≤ off → off < m.pos + m.size →
            m.data.getD (off - m.pos) 0 =
              if Range.pos ⟨0, [1,1,1,1,1,1,1,1]⟩ ≤ off ∧
                  off < Range.pos ⟨0, [1,1,1,1,1,1,1,1]⟩ + Range.size ⟨0, [1,1,1,1,1,1,1,1]⟩ then
                List.getD (Range.data ⟨0, [1,1,1,1,1,1,1,1]⟩) (off - Range.pos ⟨0, [1,1,1,1,1,1,1,1]⟩) 0
              else
                List.getD (Range.data ⟨5, [2,2,2,2,2]⟩) (off - Range.pos ⟨5, [2,2,2,2,2]⟩) 0)) :=
  ⟨by decide, claim_C1 ⟨0, [1,1,1,1,1,1,1,1]⟩ ⟨5, [2,2,2,2,2]⟩ (by decide)⟩

/-- A successful `sb_load_range` preserves the separation invariant and the
positivity of range sizes, and never touches cursor or size. -/
lemma sb_load_range_invariant {reader : SBReader} {p : Nat} {buf : List Nat} {r' : SBReader}
    (hp : List.Pairwise gapRel reader.ranges)
    (hpos : ∀ e ∈ reader.ranges, 0 < e.size)
    (h : sb_load_range reader p buf = some r') :
    List.Pairwise gapRel r'.ranges ∧ (∀ e ∈ r'.ranges, 0 < e.size) ∧
    r'.pos = reader.pos ∧ r'.size = reader.size := by
  unfold sb_load_range at h
  split_ifs at h with h1 h2 h3
  · -- empty list: the new range becomes the sole element
    obtain rfl := Option.some.inj h.symm
    refine ⟨by simp, ?_, rfl, rfl⟩
    intro e he
    simp at he
    subst he
    show 0 < buf.length
    omega
  · -- non-empty list
    cases hscan : scanMergeAux ⟨p, buf⟩ reader.ranges with
    | some l2 =>
      simp only [hscan] at h
      obtain rfl := Option.some.inj h.symm
      have hs := scanMergeAux_some reader.ranges ⟨p, buf⟩ l2 hp hscan
      refine ⟨hs.1, ?_, rfl, rfl⟩
      exact hs.2.2 hpos (by show 0 < buf.length; omega)
    | none =>
      simp only [hscan] at h
      obtain rfl := Option.some.inj h.symm
      have hnone := scanMergeAux_none hscan
      refine ⟨?_, ?_, rfl, rfl⟩
      · apply insertSorted_pairwise hp
        intro e he
        have := hnone e he
        rw [merge_eq_none_iff] at this
        exact this
      · intro e he
        rcases mem_insertSorted.mp he with rfl | he'
        · show 0 < buf.length
          omega
        · exact hpos e he'

/-- Claim C2 counterexample: on a fresh buffer of size 10 (cursor 0), loading a
3-byte payload at offset 100 succeeds — the bound check uses the cursor,
not the offset — and leaves a range with `start + length = 103 > 10`,
violating the claimed "every range lies within [0, size)" invariant. -/
theorem claim_C2_counterexample :
    sb_load_range ⟨0, 10, []⟩ 100 [7,7,7] = some ⟨0, 10, [⟨100, [7,7,7]⟩]⟩ ∧
    ¬ (∀ e ∈ [(⟨100, [7,7,7]⟩ : Range)], e.pos + e.size ≤ 10) := by
  decide

/-- Claim C2 as amended: a successful `sb_load_range` or `sb_remove_range` on an
invariant-satisfying reader preserves strict ordering with a gap of at
least one byte between consecutive ranges, positive range sizes, and the
cursor and size fields (hence `0 ≤ cursor ≤ size`); ranges need *not* lie
within `[0, size)`, since the load bound check uses the cursor rather than
the insert offset. -/
theorem claim_C2 (reader : SBReader)
    (hp : List.Pairwise gapRel reader.ranges)
    (hpos : ∀ e ∈ reader.ranges, 0 < e.size)
    (hcur : reader.pos ≤ reader.size) :
    (∀ p buf r', sb_load_range reader p buf = some r' →
      List.Pairwise gapRel r'.ranges ∧ (∀ e ∈ r'.ranges, 0 < e.size) ∧
      r'.pos = reader.pos ∧ r'.size = reader.size ∧ r'.pos ≤ r'.size) ∧
    (∀ s t r', sb_remove_range reader s t = some r' →
      List.Pairwise gapRel r'.ranges ∧ (∀ e ∈ r'.ranges, 0 < e.size) ∧
      r'.pos = reader.pos ∧ r'.size = reader.size ∧ r'.pos ≤ r'.size) := by
  constructor
  · intro p buf r' h
    obtain ⟨i1, i2, i3, i4⟩ := sb_load_range_invariant hp hpos h
    exact ⟨i1, i2, i3, i4, by omega⟩
  · intro s t r' h
    unfold sb_remove_range at h
    split_ifs at h with hv
    obtain rfl := Option.some.inj h.symm
    have hse : s ≤ t := by omega
    obtain ⟨i1, i2, _⟩ := removeLoop_invariant hse hp hpos
    exact ⟨i1, i2, rfl, rfl, hcur⟩

/-- Claim C2 witness: the amended preservation theorem applied to a concrete
invariant-satisfying reader. -/
theorem claim_C2_witness :
    (List.Pairwise gapRel [(⟨2, [5,5]⟩ : Range)] ∧
      (∀ e ∈ [(⟨2, [5,5]⟩ : Range)], 0 < e.size) ∧ (3 : Nat) ≤ 10) ∧
    ((∀ p buf r', sb_load_range ⟨3, 10, [⟨2, [5,5]⟩]⟩ p buf = some r' →
      List.Pairwise gapRel r'.ranges ∧ (∀ e ∈ r'.ranges, 0 < e.size) ∧
      r'.pos = 3 ∧ r'.size = 10 ∧ r'.pos ≤ r'.size) ∧
    (∀ s t r', sb_remove_range ⟨3, 10, [⟨2, [5,5]⟩]⟩ s t = some r' →
      List.Pairwise gapRel r'.ranges ∧ (∀ e ∈ r'.ranges, 0 < e.size) ∧
      r'.pos = 3 ∧ r'.size = 10 ∧ r'.pos ≤ r'.size)) :=
  ⟨⟨by decide, by decide, by decide⟩,
   claim_C2 ⟨3, 10, [⟨2, [5,5]⟩]⟩ (by decide) (by decide) (by decide)⟩

/-- Claim C3: on a reader satisfying the data-model invariants, `sb_read`
succeeds with exactly `n` bytes iff `n > 0` and `cursor + n ≤ size`; each
returned byte equals the loaded payload byte at its absolute offset when
that offset lies in a loaded range and zero otherwise. -/
theorem claim_C3 (reader : SBReader)
    (hp : List.Pairwise gapRel reader.ranges)
    (hpos : ∀ e ∈ reader.ranges, 0 < e.size)
    (hB : ∀ e ∈ reader.ranges, e.pos + e.size ≤ reader.size)
    (hcur : reader.pos ≤ reader.size) (n : Nat) :
    ((sb_read reader n).1.isSome ↔ 0 < n ∧ reader.pos + n ≤ reader.size) ∧
    (∀ out, (sb_read reader n).1 = some out →
      out.length = n ∧
      ∀ i, i < n → out.getD i 0 = (loadedByteAt reader.ranges (reader.pos + i)).getD 0) :=
  sb_read_spec hp hB hcur n

/-- Claim C3 witness: the read contract applied to a concrete reader with one
loaded range `[7,8]` at offset 1 in a buffer of size 4. -/
theorem claim_C3_witness :
    (List.Pairwise gapRel [(⟨1, [7,8]⟩ : Range)] ∧
      (∀ e ∈ [(⟨1, [7,8]⟩ : Range)], 0 < e.size) ∧
      (∀ e ∈ [(⟨1, [7,8]⟩ : Range)], e.pos + e.size ≤ 4) ∧ (0 : Nat) ≤ 4) ∧
    (((sb_read ⟨0, 4, [⟨1, [7,8]⟩]⟩ 4).1.isSome ↔ 0 < 4 ∧ 0 + 4 ≤ 4) ∧
     (∀ out, (sb_read ⟨0, 4, [⟨1, [7,8]⟩]⟩ 4).1 = some out →
       out.length = 4 ∧
       ∀ i, i < 4 → out.getD i 0 = (loadedByteAt [⟨1, [7,8]⟩] (0 + i)).getD 0)) :=
  ⟨⟨by decide, by decide, by decide, by decide⟩,
   claim_C3 ⟨0, 4, [⟨1, [7,8]⟩]⟩ (by decide) (by decide) (by decide) (by decide) 4⟩

/-- Claim C5: `sb_read` never mutates the reader: whether it succeeds or fails,
the state it hands back — cursor, size and range list — is exactly the
input state (the C function body contains no assignment to reader fields;
only `sb_seek` moves the cursor). -/
theorem claim_C5 (reader : SBReader) (n : Nat) : (sb_read reader n).2 = reader := by
  simp only [sb_read]
  split_ifs <;> rfl

/-- Claim C4: `sb_remove_range` accepts exactly `end < size` and `start ≤ end`
(rejecting otherwise without producing a state); on success every loaded
byte in the inclusive interval `[start, end]` becomes unloaded, every byte
outside keeps its loaded/unloaded status and value, cursor and size are
untouched, and a range strictly containing the interval is replaced by its
left remainder followed immediately by its right remainder, carrying the
corresponding sub-slices of its payload. -/
theorem claim_C4 (reader : SBReader) (start end_ : Nat)
    (hp : List.Pairwise gapRel reader.ranges)
    (hpos : ∀ e ∈ reader.ranges, 0 < e.size) :
    ((sb_remove_range reader start end_).isSome ↔ end_ < reader.size ∧ start ≤ end_) ∧
    (∀ r', sb_remove_range reader start end_ = some r' →
      r'.pos = reader.pos ∧ r'.size = reader.size ∧
      (∀ off, start ≤ off → off ≤ end_ → loadedByteAt r'.ranges off = none) ∧
      (∀ off, ¬ (start ≤ off ∧ off ≤ end_) →
        loadedByteAt r'.ranges off = loadedByteAt reader.ranges off)) ∧
    (∀ l₁ e l₂, reader.ranges = l₁ ++ e :: l₂ →
      end_ < reader.size → e.pos < start → end_ < e.pos + e.size - 1 → start ≤ end_ →
      ∃ r', sb_remove_range reader start end_ = some r' ∧
        r'.ranges = l₁ ++ ⟨e.pos, e.data.take (start - e.pos)⟩ ::
          ⟨end_ + 1, e.data.drop (end_ + 1 - e.pos)⟩ :: l₂) := by
  refine ⟨?_, ?_, ?_⟩
  · unfold sb_remove_range
    split_ifs with hv
    · simp only [Option.isSome_none, Bool.false_eq_true, false_iff]
      omega
    · simp only [Option.isSome_some, true_iff]
      omega
  · intro r' h
    unfold sb_remove_range at h
    split_ifs at h with hv
    obtain rfl := Option.some.inj h.symm
    have hse : start ≤ end_ := by omega
    refine ⟨rfl, rfl, ?_, ?_⟩
    · intro off h1 h2
      show loadedByteAt (removeLoop start end_ reader.ranges) off = none
      rw [removeLoop_byte hp hpos off, if_pos ⟨h1, h2⟩]
    · intro off hout
      show loadedByteAt (removeLoop start end_ reader.ranges) off = _
      rw [removeLoop_byte hp hpos off, if_neg hout]
  · intro l₁ e l₂ hranges hvalid hlt hgt hse
    refine ⟨{ reader with ranges := removeLoop start end_ reader.ranges }, ?_, ?_⟩
    · unfold sb_remove_range
      rw [if_neg (by omega)]
    · show removeLoop start end_ reader.ranges = _
      rw [hranges]
      exact removeLoop_split_structure hse l₁ e l₂ (hranges ▸ hp) (hranges ▸ hpos) hlt hgt

/-- Claim C4 witness: the remove contract applied to a concrete reader holding
the 8-byte range `[1..8]` at offset 2, removing the interior `[4, 6]`. -/
theorem claim_C4_witness :
    (List.Pairwise gapRel [(⟨2, [1,2,3,4,5,6,7,8]⟩ : Range)] ∧
      (∀ e ∈ [(⟨2, [1,2,3,4,5,6,7,8]⟩ : Range)], 0 < e.size)) ∧
    (((sb_remove_range ⟨0, 20, [⟨2, [1,2,3,4,5,6,7,8]⟩]⟩ 4 6).isSome ↔ 6 < 20 ∧ 4 ≤ 6) ∧
     (∀ r', sb_remove_range ⟨0, 20, [⟨2, [1,2,3,4,5,6,7,8]⟩]⟩ 4 6 = some r' →
       r'.pos = 0 ∧ r'.size = 20 ∧
       (∀ off, 4 ≤ off → off ≤ 6 → loadedByteAt r'.ranges off = none) ∧
       (∀ off, ¬ (4 ≤ off ∧ off ≤ 6) →
         loadedByteAt r'.ranges off = loadedByteAt [⟨2, [1,2,3,4,5,6,7,8]⟩] off)) ∧
     (∀ l₁ e l₂, [(⟨2, [1,2,3,4,5,6,7,8]⟩ : Range)] = l₁ ++ e :: l₂ →
       6 < 20 → e.pos < 4 → 6 < e.pos + e.size - 1 → 4 ≤ 6 →
       ∃ r', sb_remove_range ⟨0, 20, [⟨2, [1,2,3,4,5,6,7,8]⟩]⟩ 4 6 = some r' ∧
         r'.ranges = l₁ ++ ⟨e.pos, e.data.take (4 - e.pos)⟩ ::
           ⟨6 + 1, e.data.drop (6 + 1 - e.pos)⟩ :: l₂)) :=
  ⟨⟨by decide, by decide⟩,
   claim_C4 ⟨0, 20, [⟨2, [1,2,3,4,5,6,7,8]⟩]⟩ 4 6 (by decide) (by decide)⟩

/-- Claim C6 counterexample: with cursor 1 in a buffer of size 5, a
cursor-relative seek by `2^64 - 1` has mathematical target `2^64 > 5`, so
the claim demands failure, but the `size_t` sum wraps to 0 and the seek
succeeds, setting the cursor to 0. -/
theorem claim_C6_counterexample :
    (1 : Nat) + (2 ^ 64 - 1) > 5 ∧
    sb_seek ⟨1, 5, []⟩ (2 ^ 64 - 1) SBWhence.SB_CUR = (some 0, ⟨0, 5, []⟩) := by
  constructor
  · decide
  · simp only [sb_seek]
    have h0 : (2 ^ 64 - 1 + 1) % sizeTMod = 0 := by norm_num [sizeTMod]
    rw [h0, if_neg (by omega)]

/-- Claim C6 as amended: seek computes the target as the offset itself (absolute),
`(offset + cursor) mod 2^64` (cursor-relative, `size_t` wraparound), or
`size - offset` (end-relative, rejecting `offset > size`); it succeeds
exactly when the target is at most `size`, then sets the cursor and
returns the target, and it leaves the cursor unchanged on failure.
`seek(0, SB_END)` yields `size`. -/
theorem claim_C6 (reader : SBReader) (offset : Nat) :
    (offset ≤ reader.size →
      sb_seek reader offset .SB_SET = (some offset, { reader with pos := offset })) ∧
    (offset > reader.size → sb_seek reader offset .SB_SET = (none, reader)) ∧
    ((offset + reader.pos) % sizeTMod ≤ reader.size →
      sb_seek reader offset .SB_CUR =
        (some ((offset + reader.pos) % sizeTMod),
         { reader with pos := (offset + reader.pos) % sizeTMod })) ∧
    ((offset + reader.pos) % sizeTMod > reader.size →
      sb_seek reader offset .SB_CUR = (none, reader)) ∧
    (offset ≤ reader.size →
      sb_seek reader offset .SB_END =
        (some (reader.size - offset), { reader with pos := reader.size - offset })) ∧
    (offset > reader.size → sb_seek reader offset .SB_END = (none, reader)) ∧
    sb_seek reader 0 .SB_END = (some reader.size, { reader with pos := reader.size }) := by
  refine ⟨?_, ?_, ?_, ?_, ?_, ?_, ?_⟩
  · intro h
    simp only [sb_seek]
    rw [if_neg (by omega)]
  · intro h
    simp only [sb_seek]
    rw [if_pos (by omega)]
  · intro h
    simp only [sb_seek]
    rw [if_neg (by omega)]
  · intro h
    simp only [sb_seek]
    rw [if_pos (by omega)]
  · intro h
    simp only [sb_seek]
    rw [if_neg (by omega), if_neg (by omega)]
  · intro h
    simp only [sb_seek]
    rw [if_pos (by omega)]
  · simp only [sb_seek]
    rw [if_neg (by omega), if_neg (by omega)]
    simp

/-- Claim C6 witness: the amended seek contract applied to cursor 1, size 5,
offset 3. -/
theorem claim_C6_witness :
    ((3 : Nat) ≤ 5 ∧ sb_seek ⟨1, 5, []⟩ 3 .SB_SET = (some 3, ⟨3, 5, []⟩)) ∧
    ((3 + 1) % sizeTMod ≤ 5 ∧
      sb_seek ⟨1, 5, []⟩ 3 .SB_CUR = (some ((3 + 1) % sizeTMod), ⟨(3 + 1) % sizeTMod, 5, []⟩)) ∧
    ((3 : Nat) ≤ 5 ∧ sb_seek ⟨1, 5, []⟩ 3 .SB_END = (some (5 - 3), ⟨5 - 3, 5, []⟩)) ∧
    sb_seek ⟨1, 5, []⟩ 0 .SB_END = (some 5, ⟨5, 5, []⟩) :=
  ⟨⟨by norm_num [sizeTMod], (claim_C6 ⟨1, 5, []⟩ 3).1 (by norm_num)⟩,
   ⟨by norm_num [sizeTMod], (claim_C6 ⟨1, 5, []⟩ 3).2.2.1 (by norm_num [sizeTMod])⟩,
   ⟨by norm_num, (claim_C6 ⟨1, 5, []⟩ 3).2.2.2.2.1 (by norm_num)⟩,
   (claim_C6 ⟨1, 5, []⟩ 0).2.2.2.2.2.2⟩

/-- Claim C7: resize rejects 0; resizing to the current size is a no-op; growing
only updates the size field, and the newly addressable tail reads as
unloaded; shrinking removes all loaded data at or beyond the new size,
clamps the cursor down to the new size, sets the size, and preserves all
bytes below the new size. -/
theorem claim_C7 (reader : SBReader)
    (hp : List.Pairwise gapRel reader.ranges)
    (hpos : ∀ e ∈ reader.ranges, 0 < e.size)
    (hB : ∀ e ∈ reader.ranges, e.pos + e.size ≤ reader.size)
    (hcur : reader.pos ≤ reader.size) (hsz : 0 < reader.size) :
    sb_resize reader 0 = none ∧
    sb_resize reader reader.size = some reader ∧
    (∀ newsize, reader.size < newsize →
      sb_resize reader newsize = some { reader with size := newsize } ∧
      ∀ off, reader.size ≤ off → loadedByteAt reader.ranges off = none) ∧
    (∀ newsize, 0 < newsize → newsize < reader.size →
      ∃ r', sb_resize reader newsize = some r' ∧
        r'.size = newsize ∧ r'.pos = min reader.pos newsize ∧
        (∀ off, newsize ≤ off → loadedByteAt r'.ranges off = none) ∧
        (∀ off, off < newsize →
          loadedByteAt r'.ranges off = loadedByteAt reader.ranges off)) := by
  refine ⟨?_, ?_, ?_, ?_⟩
  · simp [sb_resize]
  · simp only [sb_resize]
    rw [if_neg (by omega), if_neg (by omega)]
  · intro newsize hgrow
    constructor
    · simp only [sb_resize]
      rw [if_neg (by omega), if_neg (by omega)]
    · intro off hoff
      exact loadedByteAt_eq_none_of_ge fun y hy => by have := hB y hy; omega
  · intro newsize hn0 hshrink
    have hrm : sb_remove_range reader newsize (reader.size - 1) =
        some { reader with ranges := removeLoop newsize (reader.size - 1) reader.ranges } := by
      unfold sb_remove_range
      rw [if_neg (by omega)]
    have hbyte := @removeLoop_byte newsize (reader.size - 1) reader.ranges hp hpos
    refine ⟨if reader.pos > newsize
        then ⟨newsize, newsize, removeLoop newsize (reader.size - 1) reader.ranges⟩
        else ⟨reader.pos, newsize, removeLoop newsize (reader.size - 1) reader.ranges⟩, ?_, ?_, ?_, ?_, ?_⟩
    · simp only [sb_resize]
      rw [if_neg (by omega), if_pos hshrink, hrm]
      dsimp only
      split_ifs with hclamp
      · rfl
      · rfl
    · split_ifs <;> rfl
    · split_ifs with hclamp
      · show (newsize : Nat) = min reader.pos newsize
        omega
      · show reader.pos = min reader.pos newsize
        omega
    · intro off hoff
      have hb : loadedByteAt (removeLoop newsize (reader.size - 1) reader.ranges) off =
          if newsize ≤ off ∧ off ≤ reader.size - 1 then none
          else loadedByteAt reader.ranges off := hbyte off
      split_ifs <;>
        · show loadedByteAt (removeLoop newsize (reader.size - 1) reader.ranges) off = none
          rw [hb]
          split_ifs with hcase
          · rfl
          · exact loadedByteAt_eq_none_of_ge fun y hy => by have := hB y hy; omega
    · intro off hoff
      have hb := hbyte off
      split_ifs <;>
        · show loadedByteAt (removeLoop newsize (reader.size - 1) reader.ranges) off = _
          rw [hb, if_neg (by omega)]

/-- Claim C7 witness: the resize contract applied to a concrete reader with one
range `[1,2,3]` at offset 2, cursor 5, size 10. -/
theorem claim_C7_witness :
    (List.Pairwise gapRel [(⟨2, [1,2,3]⟩ : Range)] ∧
      (∀ e ∈ [(⟨2, [1,2,3]⟩ : Range)], 0 < e.size) ∧
      (∀ e ∈ [(⟨2, [1,2,3]⟩ : Range)], e.pos + e.size ≤ 10) ∧
      (5 : Nat) ≤ 10 ∧ (0 : Nat) < 10) ∧
    (sb_resize ⟨5, 10, [⟨2, [1,2,3]⟩]⟩ 0 = none ∧
     sb_resize ⟨5, 10, [⟨2, [1,2,3]⟩]⟩ 10 = some ⟨5, 10, [⟨2, [1,2,3]⟩]⟩ ∧
     (∀ newsize, 10 < newsize →
       sb_resize ⟨5, 10, [⟨2, [1,2,3]⟩]⟩ newsize = some ⟨5, newsize, [⟨2, [1,2,3]⟩]⟩ ∧
       ∀ off, 10 ≤ off → loadedByteAt [⟨2, [1,2,3]⟩] off = none) ∧
     (∀ newsize, 0 < newsize → newsize < 10 →
       ∃ r', sb_resize ⟨5, 10, [⟨2, [1,2,3]⟩]⟩ newsize = some r' ∧
         r'.size = newsize ∧ r'.pos = min 5 newsize ∧
         (∀ off, newsize ≤ off → loadedByteAt r'.ranges off = none) ∧
         (∀ off, off < newsize →
           loadedByteAt r'.ranges off = loadedByteAt [⟨2, [1,2,3]⟩] off))) :=
  ⟨⟨by decide, by decide, by decide, by decide, by decide⟩,
   claim_C7 ⟨5, 10, [⟨2, [1,2,3]⟩]⟩ (by decide) (by decide) (by decide) (by decide) (by decide)⟩

/-- Claim C8: `sb_load_range` fails exactly on a zero-length payload or when
`cursor + length > size`; the bound check is made against the cursor, not
the insert offset, so acceptance of a load never depends on the offset
argument. -/
theorem claim_C8 (reader : SBReader) (p : Nat) (buf : List Nat) :
    (sb_load_range reader p buf = none ↔
      buf.length = 0 ∨ reader.pos + buf.length > reader.size) ∧
    (∀ p', (sb_load_range reader p buf).isSome = (sb_load_range reader p' buf).isSome) := by
  have hsome : ∀ q, ¬ buf.length = 0 → ¬ reader.pos + buf.length > reader.size →
      (sb_load_range reader q buf).isSome = true := by
    intro q h1 h2
    unfold sb_load_range
    rw [if_neg h1, if_neg h2]
    split_ifs with h3
    · rfl
    · cases hscan : scanMergeAux ⟨q, buf⟩ reader.ranges <;> simp [hscan]
  have hnone : ∀ q, buf.length = 0 ∨ reader.pos + buf.length > reader.size →
      sb_load_range reader q buf = none := by
    intro q hq
    unfold sb_load_range
    rcases hq with hq | hq
    · rw [if_pos hq]
    · by_cases h1 : buf.length = 0
      · rw [if_pos h1]
      · rw [if_neg h1, if_pos hq]
  constructor
  · constructor
    · intro h
      by_contra hc
      push_neg at hc
      have := hsome p hc.1 (by omega)
      rw [h] at this
      cases this
    · exact hnone p
  · intro p'
    by_cases h1 : buf.length = 0
    · rw [hnone p (Or.inl h1), hnone p' (Or.inl h1)]
    · by_cases h2 : reader.pos + buf.length > reader.size
      · rw [hnone p (Or.inr h2), hnone p' (Or.inr h2)]
      · rw [hsome p h1 h2, hsome p' h1 h2]

/-- Claim C9: when the allocator fails while building the replacement payload for
a range overlapping only the right boundary of the removal interval,
`sb_remove_range` returns `+1` (line 561) — with `e->pos`/`e->size` already
advanced — whereas the split and left-truncation allocation failures return
`-1`; consequently `sb_resize`, which only treats negative returns as
errors, reports success and updates the size even though that truncation
step failed.  All four scenarios below run with an always-failing
allocator. -/
theorem claim_C9 :
    sb_remove_rangeA (fun _ => false) ⟨0, 10, [⟨2, 4, [5,5,5,5]⟩]⟩ 0 3 =
      (1, ⟨0, 10, [⟨4, 2, [5,5,5,5]⟩]⟩) ∧
    sb_remove_rangeA (fun _ => false) ⟨0, 10, [⟨2, 4, [5,5,5,5]⟩]⟩ 4 9 =
      (-1, ⟨0, 10, [⟨2, 2, [5,5,5,5]⟩]⟩) ∧
    sb_remove_rangeA (fun _ => false) ⟨0, 10, [⟨2, 6, [5,5,5,5,5,5]⟩]⟩ 3 4 =
      (-1, ⟨0, 10, [⟨2, 6, [5,5,5,5,5,5]⟩]⟩) ∧
    sb_resizeA (fun _ => false) ⟨0, 10, [⟨8, 4, [9,9,9,9]⟩]⟩ 4 =
      (0, ⟨0, 4, [⟨10, 2, [9,9,9,9]⟩]⟩) := by
  refine ⟨?_, ?_, ?_, ?_⟩ <;> rfl

/-- Claim C10: in the cursor-relative mode the target is computed with `size_t`
addition, i.e. `(offset + cursor) mod 2^64`; whenever the exact sum reaches
`2^64` but the wrapped value (the sum minus `2^64`) is at most `size`, the
seek succeeds and sets the cursor to the wrapped value instead of failing
the bounds check. -/
theorem claim_C10 (reader : SBReader) (offset : Nat)
    (h1 : offset < sizeTMod) (h2 : reader.pos < sizeTMod)
    (hbig : sizeTMod ≤ offset + reader.pos)
    (hwrap : (offset + reader.pos) % sizeTMod ≤ reader.size) :
    sb_seek reader offset .SB_CUR =
      (some ((offset + reader.pos) % sizeTMod),
       { reader with pos := (offset + reader.pos) % sizeTMod }) ∧
    (offset + reader.pos) % sizeTMod = offset + reader.pos - sizeTMod := by
  constructor
  · simp only [sb_seek]
    rw [if_neg (by omega)]
  · have hm : sizeTMod = 18446744073709551616 := by norm_num [sizeTMod]
    rw [hm] at h1 h2 hbig ⊢
    omega

/-- Claim C10 witness: cursor 1, size 5, offset `2^64 - 1`: the exact sum is
`2^64`, the wrapped target is 0, and the seek succeeds with cursor 0. -/
theorem claim_C10_witness :
    ((2 ^ 64 - 1 : Nat) < sizeTMod ∧ (1 : Nat) < sizeTMod ∧
      sizeTMod ≤ (2 ^ 64 - 1) + 1 ∧ ((2 ^ 64 - 1) + 1) % sizeTMod ≤ 5) ∧
    (sb_seek ⟨1, 5, []⟩ (2 ^ 64 - 1) .SB_CUR =
      (some (((2 ^ 64 - 1) + 1) % sizeTMod),
       ⟨((2 ^ 64 - 1) + 1) % sizeTMod, 5, []⟩) ∧
     ((2 ^ 64 - 1) + 1) % sizeTMod = (2 ^ 64 - 1) + 1 - sizeTMod) :=
  ⟨⟨by norm_num [sizeTMod], by norm_num [sizeTMod], by norm_num [sizeTMod],
    by norm_num [sizeTMod]⟩,
   claim_C10 ⟨1, 5, []⟩ (2 ^ 64 - 1) (by norm_num [sizeTMod]) (by norm_num [sizeTMod])
     (by norm_num [sizeTMod]) (by norm_num [sizeTMod])⟩
